import Mathlib

/-!
# fast_gicp: the degrees-of-freedom projectors of `lsq_registration.hpp`

A shallow embedding of `include/fast_gicp/gicp/lsq_registration.hpp`:
the projector hierarchy `Foo<Dim>` / `TranslationOnly` / `CustomDOF<Args...>`
and the template `count_true`.  `LsqRegistration::is_converged` is only
declared in this header, so it is not embedded.

The projectors only move matrix entries around (copy, select a block, fill
with zero), so the scalar type `double` is kept abstract: every result below
holds for any scalar type `α` that has a zero.  Products of matrices are only
used where a statement speaks of exact arithmetic, and there `α` is a ring.
-/

namespace fast_gicp

/-! ## Eigen fixed-size matrices -/

/-- An `Eigen::Matrix<Scalar, R, C>`: a dense matrix of `R` rows and `C`
columns, read by row index and column index.  A vector
`Eigen::Matrix<Scalar, R, 1>` is the one-column case, so `v[i]` is `v i 0`. -/
abbrev EigenMatrix (α : Type) (R C : Nat) : Type := Fin R → Fin C → α

/-- The value of `Eigen::Matrix<Scalar, R, C>::Zero()`. -/
def EigenMatrix.Zero {α : Type} [OfNat α 0] (R C : Nat) : EigenMatrix α R C :=
  fun _ _ => 0

/-- The value of `M.bottomRightCorner(p, q)`: the block of `p` rows and `q`
columns that starts at row `R - p` and column `C - q`. -/
def EigenMatrix.bottomRightCorner {α : Type} {R C : Nat} (M : EigenMatrix α R C)
    (p q : Nat) (hp : p ≤ R) (hq : q ≤ C) : EigenMatrix α p q :=
  fun i j => M ⟨R - p + i.val, by omega⟩ ⟨C - q + j.val, by omega⟩

/-- The matrix `d` after the assignment `d.bottomRightCorner(p, q) = src`:
entries inside the block are taken from `src`, the others are left as they
were. -/
def EigenMatrix.assignBottomRightCorner {α : Type} {R C : Nat} (d : EigenMatrix α R C)
    (p q : Nat) (hp : p ≤ R) (hq : q ≤ C) (src : EigenMatrix α p q) : EigenMatrix α R C :=
  fun i j =>
    if h : R - p ≤ i.val ∧ C - q ≤ j.val then
      src ⟨i.val - (R - p), by omega⟩ ⟨j.val - (C - q), by omega⟩
    else d i j

/-- The implicit conversion that a `return M;` performs when the declared
return type is `Eigen::Matrix<Scalar, R2, C2>` and `M` is an
`Eigen::Matrix<Scalar, R, C>`.  Eigen copies fixed-size matrices only between
equal dimensions (it rejects mixed sizes), so the conversion yields a value
exactly when `R2 = R` and `C2 = C`. -/
def EigenMatrix.convert {α : Type} {R C : Nat} (R2 C2 : Nat) (M : EigenMatrix α R C) :
    Option (EigenMatrix α R2 C2) :=
  if h : R2 = R ∧ C2 = C then some (fun i j => M (Fin.cast h.1 i) (Fin.cast h.2 j))
  else none

/-- The exact matrix product `A * B`, entries in a ring. -/
def EigenMatrix.mul {α : Type} [Ring α] {R K C : Nat}
    (A : EigenMatrix α R K) (B : EigenMatrix α K C) : EigenMatrix α R C :=
  fun i j => Finset.univ.sum fun k : Fin K => A i k * B k j

/-- The exact entrywise difference `A - B`. -/
def EigenMatrix.sub {α : Type} [Ring α] {R C : Nat}
    (A B : EigenMatrix α R C) : EigenMatrix α R C :=
  fun i j => A i j - B i j

/-- A square matrix is symmetric when `M[i][j] = M[j][i]` for all `i`, `j`. -/
def EigenMatrix.IsSymmetric {α : Type} {N : Nat} (M : EigenMatrix α N N) : Prop :=
  ∀ i j : Fin N, M i j = M j i

/-! ## `Foo<Dim>`: the base projector -/

/-- `Foo<Dim>::reduce_H`: `return H_in;` with return type
`Eigen::Matrix<double, Dim, Dim>`. -/
def Foo.reduce_H {α : Type} (Dim : Nat) (H_in : EigenMatrix α 6 6) :
    Option (EigenMatrix α Dim Dim) :=
  EigenMatrix.convert Dim Dim H_in

/-- `Foo<Dim>::reduce_b`: `return b_in;` with return type
`Eigen::Matrix<double, Dim, 1>`. -/
def Foo.reduce_b {α : Type} (Dim : Nat) (b_in : EigenMatrix α 6 1) :
    Option (EigenMatrix α Dim 1) :=
  EigenMatrix.convert Dim 1 b_in

/-- `Foo<Dim>::expand_b`: `return b_in;` with return type
`Eigen::Matrix<double, 6, 1>`. -/
def Foo.expand_b {α : Type} (Dim : Nat) (b_in : EigenMatrix α Dim 1) :
    Option (EigenMatrix α 6 1) :=
  EigenMatrix.convert 6 1 b_in

/-! ## `TranslationOnly : Foo<3>` -/

/-- `TranslationOnly::reduce_H`: `return H_in.bottomRightCorner(3, 3);`. -/
def TranslationOnly.reduce_H {α : Type} (H_in : EigenMatrix α 6 6) : EigenMatrix α 3 3 :=
  EigenMatrix.bottomRightCorner H_in 3 3 (by decide) (by decide)

/-- `TranslationOnly::reduce_b`: `return b_in.bottomRightCorner(3, 1);`. -/
def TranslationOnly.reduce_b {α : Type} (b_in : EigenMatrix α 6 1) : EigenMatrix α 3 1 :=
  EigenMatrix.bottomRightCorner b_in 3 1 (by decide) (by decide)

/-- `TranslationOnly::expand_b`: `d = Zero(); d.bottomRightCorner(3, 1) = b_in;
return d;`. -/
def TranslationOnly.expand_b {α : Type} [OfNat α 0] (b_in : EigenMatrix α 3 1) :
    EigenMatrix α 6 1 :=
  let d : EigenMatrix α 6 1 := EigenMatrix.Zero 6 1
  EigenMatrix.assignBottomRightCorner d 3 1 (by decide) (by decide) b_in

/-! ## `count_true` and `CustomDOF<Args...>` -/

/-- The template `count_true<B, Args...>::value`.  The two full
specialisations `count_true<true>` and `count_true<false>` give 1 and 0; the
primary template, used when the pack `Args...` is not empty, gives
`count_true<B>::value + count_true<Args...>::value`. -/
def count_true : Bool → List Bool → Nat
  | true, [] => 1
  | false, [] => 0
  | B, A :: Args => count_true B [] + count_true A Args
termination_by _ Args => Args.length

/-- A plain population count over a mask: the number of its `true` entries. -/
def popcount_spec (m : List Bool) : Nat :=
  (m.filter fun b => b = true).length

/-- A `std::array<T, N>`: exactly `N` elements of type `T`. -/
structure StdArray (T : Type) (N : Nat) where
  /-- the elements, in order -/
  elems : List T
  /-- there are `N` of them -/
  size_eq : elems.length = N

/-- The template argument `Dim` of the base `Foo<Dim>` that
`CustomDOF<Args...>` derives from: `count_true<Args...>::value`.  The pack is
written as its first entry `B` and the rest, as `count_true` takes it. -/
def CustomDOF.Dim (B : Bool) (Args : List Bool) : Nat :=
  count_true B Args

/-- The member type `CustomDOF<Args...>::KeepDOF`, which is
`std::array<bool, count_true<Args...>::value>`. -/
abbrev CustomDOF.KeepDOF (B : Bool) (Args : List Bool) : Type :=
  StdArray Bool (count_true B Args)

/-- An object of `CustomDOF<Args...>`: its only data member is `keep_dof`. -/
structure CustomDOF (B : Bool) (Args : List Bool) where
  /-- the member `KeepDOF keep_dof` -/
  keep_dof : CustomDOF.KeepDOF B Args

/-- `CustomDOF<Args...>::reduce_H`: not overridden, so it is
`Foo<count_true<Args...>::value>::reduce_H`. -/
def CustomDOF.reduce_H {α : Type} {B : Bool} {Args : List Bool} (_self : CustomDOF B Args)
    (H_in : EigenMatrix α 6 6) :
    Option (EigenMatrix α (CustomDOF.Dim B Args) (CustomDOF.Dim B Args)) :=
  Foo.reduce_H (CustomDOF.Dim B Args) H_in

/-- `CustomDOF<Args...>::reduce_b`: not overridden, so it is
`Foo<count_true<Args...>::value>::reduce_b`. -/
def CustomDOF.reduce_b {α : Type} {B : Bool} {Args : List Bool} (_self : CustomDOF B Args)
    (b_in : EigenMatrix α 6 1) : Option (EigenMatrix α (CustomDOF.Dim B Args) 1) :=
  Foo.reduce_b (CustomDOF.Dim B Args) b_in

/-- `CustomDOF<Args...>::expand_b`: not overridden, so it is
`Foo<count_true<Args...>::value>::expand_b`. -/
def CustomDOF.expand_b {α : Type} {B : Bool} {Args : List Bool} (_self : CustomDOF B Args)
    (b_in : EigenMatrix α (CustomDOF.Dim B Args) 1) : Option (EigenMatrix α 6 1) :=
  Foo.expand_b (CustomDOF.Dim B Args) b_in

/-! ## Concrete inputs -/

/-- The symmetric integer matrix with `H[i][j] = i + j`. -/
def H_sum : EigenMatrix Int 6 6 :=
  fun i j => (i.val : Int) + (j.val : Int)

/-- The integer matrix `2 * I`. -/
def H_twice : EigenMatrix Int 6 6 :=
  fun i j => if i = j then 2 else 0

/-- The integer 3-vector `(1, 1, 1)`. -/
def w_ones : EigenMatrix Int 3 1 :=
  fun _ _ => 1

/-- The integer 6-vector `(2, 2, 2, 2, 2, 2)`. -/
def b_twos : EigenMatrix Int 6 1 :=
  fun _ _ => 2

/-! ## Theorems -/

/-- Below row 3 the vector built by `TranslationOnly::expand_b` keeps the zero
it was initialised with. -/
theorem TranslationOnly.expand_b_rot {α : Type} [OfNat α 0] (w : EigenMatrix α 3 1)
    (i : Fin 6) (j : Fin 1) (h : i.val < 3) : TranslationOnly.expand_b w i j = 0 := by
  unfold TranslationOnly.expand_b EigenMatrix.assignBottomRightCorner
  rw [dif_neg (by omega)]
  rfl

/-- From row 3 on the vector built by `TranslationOnly::expand_b` holds the
argument, shifted down by three rows. -/
theorem TranslationOnly.expand_b_trans {α : Type} [OfNat α 0] (w : EigenMatrix α 3 1)
    (i : Fin 6) (j : Fin 1) (h : 3 ≤ i.val) :
    TranslationOnly.expand_b w i j = w ⟨i.val - 3, by omega⟩ j := by
  unfold TranslationOnly.expand_b EigenMatrix.assignBottomRightCorner
  rw [dif_pos ⟨by omega, by omega⟩]
  congr 1

/-- Entry `i` of `TranslationOnly::reduce_b` is entry `i + 3` of its argument. -/
theorem TranslationOnly.reduce_b_apply {α : Type} (b : EigenMatrix α 6 1)
    (i : Fin 3) (j : Fin 1) :
    TranslationOnly.reduce_b b i j = b ⟨i.val + 3, by omega⟩ j := by
  unfold TranslationOnly.reduce_b EigenMatrix.bottomRightCorner
  congr 1
  · exact Fin.ext (by simp; omega)
  · exact Subsingleton.elim _ _

/-- Entry `(i, j)` of `TranslationOnly::reduce_H` is entry `(i + 3, j + 3)` of
its argument. -/
theorem TranslationOnly.reduce_H_apply {α : Type} (H : EigenMatrix α 6 6) (i j : Fin 3) :
    TranslationOnly.reduce_H H i j = H ⟨i.val + 3, by omega⟩ ⟨j.val + 3, by omega⟩ := by
  unfold TranslationOnly.reduce_H EigenMatrix.bottomRightCorner
  congr 1
  · exact Fin.ext (by simp; omega)
  · exact Fin.ext (by simp; omega)

/-- `Foo<6>::reduce_H` returns its argument. -/
theorem Foo.reduce_H_six {α : Type} (H : EigenMatrix α 6 6) : Foo.reduce_H 6 H = some H := by
  simp [Foo.reduce_H, EigenMatrix.convert]

/-- C1: for the identity projector `Foo<6>`, `reduce_H`, `reduce_b` and
`expand_b` each return their argument unchanged, for every 6x6 matrix and
every 6-vector. -/
theorem Foo6_identity {α : Type} (H : EigenMatrix α 6 6) (v : EigenMatrix α 6 1) :
    Foo.reduce_H 6 H = some H ∧ Foo.reduce_b 6 v = some v ∧ Foo.expand_b 6 v = some v := by
  refine ⟨?_, ?_, ?_⟩ <;> simp [Foo.reduce_H, Foo.reduce_b, Foo.expand_b, EigenMatrix.convert]

/-- C2: for `TranslationOnly` and every 6-vector `v`, the vector
`u = expand_b(reduce_b(v))` has `u[i] = 0` for `i = 0, 1, 2` and
`u[i] = v[i]` for `i = 3, 4, 5`. -/
theorem TranslationOnly_expand_reduce {α : Type} [OfNat α 0] (v : EigenMatrix α 6 1) :
    ∀ i : Fin 3,
      TranslationOnly.expand_b (TranslationOnly.reduce_b v) ⟨i.val, by omega⟩ 0 = 0 ∧
      TranslationOnly.expand_b (TranslationOnly.reduce_b v) ⟨i.val + 3, by omega⟩ 0
        = v ⟨i.val + 3, by omega⟩ 0 := by
  intro i
  constructor
  · exact TranslationOnly.expand_b_rot _ _ _ i.isLt
  · rw [TranslationOnly.expand_b_trans _ _ _ (by simp), TranslationOnly.reduce_b_apply]
    simp

/-- C3: for `TranslationOnly`, `reduce_H(H)[i][j] = H[i+3][j+3]` and
`reduce_b(b)[i] = b[i+3]` for all `i`, `j` in 0..2: the trailing 3x3 block
and the trailing three entries. -/
theorem TranslationOnly_reduce_trailing {α : Type} (H : EigenMatrix α 6 6)
    (b : EigenMatrix α 6 1) :
    (∀ i j : Fin 3,
      TranslationOnly.reduce_H H i j = H ⟨i.val + 3, by omega⟩ ⟨j.val + 3, by omega⟩) ∧
    (∀ i : Fin 3, TranslationOnly.reduce_b b i 0 = b ⟨i.val + 3, by omega⟩ 0) :=
  ⟨fun i j => TranslationOnly.reduce_H_apply H i j,
   fun i => TranslationOnly.reduce_b_apply b i 0⟩

/-- C4: for `TranslationOnly` and every 3-vector `w`, `expand_b(w)[i] = 0` and
`expand_b(w)[i+3] = w[i]` for `i` in 0..2, and `reduce_b(expand_b(w)) = w`. -/
theorem TranslationOnly_expand_b_spec {α : Type} [OfNat α 0] (w : EigenMatrix α 3 1) :
    (∀ i : Fin 3,
      TranslationOnly.expand_b w ⟨i.val, by omega⟩ 0 = 0 ∧
      TranslationOnly.expand_b w ⟨i.val + 3, by omega⟩ 0 = w i 0) ∧
    TranslationOnly.reduce_b (TranslationOnly.expand_b w) = w := by
  constructor
  · intro i
    constructor
    · exact TranslationOnly.expand_b_rot _ _ _ i.isLt
    · rw [TranslationOnly.expand_b_trans _ _ _ (by simp)]
      simp
  · funext i j
    rw [TranslationOnly.reduce_b_apply, TranslationOnly.expand_b_trans _ _ _ (by simp)]
    simp

/-- The two specialisations of `count_true`, as one equation. -/
theorem count_true_nil (B : Bool) : count_true B [] = if B = true then 1 else 0 := by
  cases B <;> simp [count_true]

/-- The primary template of `count_true`, as an equation. -/
theorem count_true_cons (B A : Bool) (Args : List Bool) :
    count_true B (A :: Args) = count_true B [] + count_true A Args := by
  cases B <;> simp [count_true]

/-- The template `count_true` computes the population count of its pack. -/
theorem count_true_eq_popcount (B : Bool) (Args : List Bool) :
    count_true B Args = popcount_spec (B :: Args) := by
  induction Args generalizing B with
  | nil => cases B <;> simp [count_true_nil, popcount_spec]
  | cons A Args ih =>
    rw [count_true_cons, ih A, count_true_nil]
    cases B <;> simp [popcount_spec, List.filter_cons, Nat.add_comm]

/-- C5: for every non-empty mask `B, Args...`, `count_true<B, Args...>::value`
is the number of `true` entries of the mask, and it is the dimension `Dim` of
the base `Foo<Dim>` of `CustomDOF<B, Args...>`. -/
theorem count_true_is_popcount (B : Bool) (Args : List Bool) :
    count_true B Args = popcount_spec (B :: Args) ∧
    CustomDOF.Dim B Args = count_true B Args := by
  exact ⟨count_true_eq_popcount B Args, rfl⟩

/-- When the mask does not have six `true` entries, the operations that
`CustomDOF` inherits from `Foo` have no matrix to return. -/
theorem CustomDOF.reduce_none {α : Type} {B : Bool} {Args : List Bool}
    (self : CustomDOF B Args) (h : count_true B Args ≠ 6)
    (H : EigenMatrix α 6 6) (v : EigenMatrix α 6 1)
    (w : EigenMatrix α (CustomDOF.Dim B Args) 1) :
    CustomDOF.reduce_H self H = none ∧ CustomDOF.reduce_b self v = none ∧
    CustomDOF.expand_b self w = none := by
  have h2 : ¬ (6 = count_true B Args) := fun e => h e.symm
  refine ⟨?_, ?_, ?_⟩ <;>
    simp [CustomDOF.reduce_H, CustomDOF.reduce_b, CustomDOF.expand_b, Foo.reduce_H,
      Foo.reduce_b, Foo.expand_b, EigenMatrix.convert, CustomDOF.Dim, h, h2]

/-- C6 (the code at the mask `false, false, false, true, true, true`): the
operations of `CustomDOF` are the ones inherited from `Foo<3>`, and for no 6x6
matrix `H`, 6-vector `v` or reduced vector `w` do they return a matrix: no
submatrix at the `true` rows and columns, no selected entries, no scattered
vector. -/
theorem CustomDOF_translation_mask_returns_nothing {α : Type}
    (self : CustomDOF false [false, false, true, true, true])
    (H : EigenMatrix α 6 6) (v : EigenMatrix α 6 1)
    (w : EigenMatrix α (CustomDOF.Dim false [false, false, true, true, true]) 1) :
    CustomDOF.reduce_H self H = none ∧ CustomDOF.reduce_b self v = none ∧
    CustomDOF.expand_b self w = none :=
  CustomDOF.reduce_none self (by simp [count_true]) H v w

/-- C9: if the 6x6 matrix `H` is symmetric, then `Foo<6>::reduce_H` returns a
symmetric matrix and `TranslationOnly::reduce_H` returns a symmetric matrix. -/
theorem reduce_H_preserves_symmetry {α : Type} (H : EigenMatrix α 6 6)
    (hH : EigenMatrix.IsSymmetric H) :
    (∃ M, Foo.reduce_H 6 H = some M ∧ EigenMatrix.IsSymmetric M) ∧
    EigenMatrix.IsSymmetric (TranslationOnly.reduce_H H) := by
  constructor
  · exact ⟨H, (Foo.reduce_H_six H), hH⟩
  · intro i j
    rw [TranslationOnly.reduce_H_apply, TranslationOnly.reduce_H_apply]
    exact hH _ _

/-- C9 at the matrix with `H[i][j] = i + j`. -/
theorem reduce_H_preserves_symmetry_witness :
    EigenMatrix.IsSymmetric H_sum ∧
    ((∃ M, Foo.reduce_H 6 H_sum = some M ∧ EigenMatrix.IsSymmetric M) ∧
      EigenMatrix.IsSymmetric (TranslationOnly.reduce_H H_sum)) :=
  ⟨fun i j => by simp [H_sum, add_comm],
   reduce_H_preserves_symmetry H_sum (fun i j => by simp [H_sum, add_comm])⟩

/-- The product of a matrix with the vector built by
`TranslationOnly::expand_b` only reads the last three columns of the matrix. -/
theorem TranslationOnly.mul_expand_b {α : Type} [Ring α] {R : Nat} (H : EigenMatrix α R 6)
    (w : EigenMatrix α 3 1) (i : Fin R) (j : Fin 1) :
    EigenMatrix.mul H (TranslationOnly.expand_b w) i j
      = Finset.univ.sum fun k : Fin 3 => H i ⟨k.val + 3, by omega⟩ * w k j := by
  unfold EigenMatrix.mul
  rw [Fin.sum_univ_six, Fin.sum_univ_three,
    TranslationOnly.expand_b_rot w 0 j (by decide),
    TranslationOnly.expand_b_rot w 1 j (by decide),
    TranslationOnly.expand_b_rot w 2 j (by decide),
    TranslationOnly.expand_b_trans w 3 j (by decide),
    TranslationOnly.expand_b_trans w 4 j (by decide),
    TranslationOnly.expand_b_trans w 5 j (by decide)]
  simp only [mul_zero, zero_add]
  rfl

/-- C10: for `TranslationOnly`, every 6x6 matrix `H` and every 3-vector `w`,
in exact arithmetic `reduce_b(H * expand_b(w)) = reduce_H(H) * w`; and if
`reduce_H(H) * w = reduce_b(b)` then the residual `H * expand_b(w) - b` is
zero in its entries 3, 4 and 5. -/
theorem TranslationOnly_reduced_system {α : Type} [Ring α] (H : EigenMatrix α 6 6)
    (w : EigenMatrix α 3 1) :
    TranslationOnly.reduce_b (EigenMatrix.mul H (TranslationOnly.expand_b w))
      = EigenMatrix.mul (TranslationOnly.reduce_H H) w ∧
    ∀ b : EigenMatrix α 6 1,
      EigenMatrix.mul (TranslationOnly.reduce_H H) w = TranslationOnly.reduce_b b →
      ∀ i : Fin 3,
        EigenMatrix.sub (EigenMatrix.mul H (TranslationOnly.expand_b w)) b
          ⟨i.val + 3, by omega⟩ 0 = 0 := by
  have h1 : TranslationOnly.reduce_b (EigenMatrix.mul H (TranslationOnly.expand_b w))
      = EigenMatrix.mul (TranslationOnly.reduce_H H) w := by
    funext i j
    rw [TranslationOnly.reduce_b_apply, TranslationOnly.mul_expand_b]
    unfold EigenMatrix.mul
    refine Finset.sum_congr rfl fun k _ => ?_
    rw [TranslationOnly.reduce_H_apply]
  refine ⟨h1, fun b hb i => ?_⟩
  have h2 := congrFun (congrFun (h1.trans hb) i) 0
  rw [TranslationOnly.reduce_b_apply, TranslationOnly.reduce_b_apply] at h2
  unfold EigenMatrix.sub
  rw [h2]
  exact sub_self _

/-- C10 at `H = 2 * I`, `w = (1, 1, 1)` and `b = (2, 2, 2, 2, 2, 2)`. -/
theorem TranslationOnly_reduced_system_witness :
    EigenMatrix.mul (TranslationOnly.reduce_H H_twice) w_ones = TranslationOnly.reduce_b b_twos ∧
    ∀ i : Fin 3,
      EigenMatrix.sub (EigenMatrix.mul H_twice (TranslationOnly.expand_b w_ones)) b_twos
        ⟨i.val + 3, by omega⟩ 0 = 0 :=
  have hb : EigenMatrix.mul (TranslationOnly.reduce_H H_twice) w_ones
      = TranslationOnly.reduce_b b_twos := by
    funext i j
    fin_cases i <;>
      simp [EigenMatrix.mul, Fin.sum_univ_three, TranslationOnly.reduce_H,
        TranslationOnly.reduce_b, EigenMatrix.bottomRightCorner, H_twice, w_ones, b_twos]
  ⟨hb, (TranslationOnly_reduced_system H_twice w_ones).2 b_twos hb⟩

end fast_gicp
